import Mathlib

/-!
# Verification of the recipe-app-api core

A shallow embedding of the recipe API's filtering, ownership-scoping and
association-reconciliation logic, together with theorems checking the
natural-language specification against it.

The embedding follows `app/recipe/views.py` (`RecipeViewSet`,
`BaseRecipeAttrViewset`), `app/recipe/serializers.py` and
`app/recipe/urls.py`.  The Django/DRF runtime pieces the views configure
(queryset evaluation with SQL join semantics, `get_object` 404 behaviour,
`ModelSerializer` field handling, router registration) are embedded
explicitly.  The `Recipe`/`Tag`/`Ingredient` model classes and the
serializer-side reconciliation code are not present in the provided
sources (only their callers, tests and a migration are); those parts are
modelled from the spec and marked as such in their doc comments.
-/

namespace RecipeApp

/-- A child row (Tag or Ingredient).  Modelled from the spec: the `Tag` and
`Ingredient` model classes are absent from `app/core/models.py` (only `User`
is present there); their shape — an id, an owning user, a name — is fixed by
spec §3, the test files and migration 0006. -/
structure AttrRow where
  id : Nat
  user : Nat
  name : String
  deriving DecidableEq, Repr

/-- A recipe row.  Modelled from the spec: the `Recipe` model class is absent
from `app/core/models.py`; its fields are fixed by spec §3, the serializers,
the tests and migration 0006.  `price` is a fixed-point decimal, represented
in minor units; `tags` and `ingredients` are the many-to-many association
rows, stored as lists of child ids.  The optional image is irrelevant to
every claim treated here and is omitted. -/
structure Recipe where
  id : Nat
  user : Nat
  title : String
  time_minutes : Nat
  price : Int
  description : String
  link : String
  tags : List Nat
  ingredients : List Nat
  deriving DecidableEq, Repr

/-- The entity store: one table per model.  `tags` and `ingredients` are
separate tables of the same row shape. -/
structure DB where
  recipes : List Recipe
  tags : List AttrRow
  ingredients : List AttrRow
  deriving DecidableEq, Repr

/-! ## Query-parameter handling (`RecipeViewSet._params_to_ints`)

`views.py` reads `request.query_params.get('tags')`, which is `None` when
the parameter is absent; `if tags:` then tests Python truthiness, so the
empty string is treated like an absent parameter. -/

/-- Python truthiness of `query_params.get(...)`: `None` and `''` are falsy,
every non-empty string is truthy. -/
def strTruthy : Option String → Bool
  | none => false
  | some s => decide (s ≠ "")

def digitVal? (c : Char) : Option Nat :=
  if c.isDigit then some (c.toNat - '0'.toNat) else none

def decDigitsAux : List Char → Nat → Option Nat
  | [], acc => some acc
  | c :: cs, acc =>
    match digitVal? c with
    | some d => decDigitsAux cs (acc * 10 + d)
    | none => none

/-- Decimal digit run; fails on an empty run or a non-digit character. -/
def decDigits? (cs : List Char) : Option Nat :=
  if cs.isEmpty then none else decDigitsAux cs 0

/-- Model of Python `int(s)` on a query token: an optional sign followed by
decimal digits; any other string raises `ValueError`, modelled as `none`. -/
def pyInt? (s : String) : Option Int :=
  match s.data with
  | '-' :: rest => (decDigits? rest).map (fun n => -(n : Int))
  | '+' :: rest => (decDigits? rest).map (fun n => (n : Int))
  | cs => (decDigits? cs).map (fun n => (n : Int))

/-- Python `str.split(',')` over the character list: the empty string yields
`[""]`, adjacent or trailing commas yield empty tokens. -/
def splitCommaAux : List Char → List Char → List String
  | [], acc => [String.mk acc.reverse]
  | c :: cs, acc =>
    if c = ',' then String.mk acc.reverse :: splitCommaAux cs []
    else splitCommaAux cs (c :: acc)

def splitComma (s : String) : List String :=
  splitCommaAux s.data []

/-- `RecipeViewSet._params_to_ints`: split the parameter on commas and apply
`int` to every token.  `none` models the `ValueError` that `int` raises on a
non-integer token; `views.py` has no handler for it, so it escapes the view. -/
def params_to_ints (qs : String) : Option (List Int) :=
  (splitComma qs).mapM pyInt?

/-! ## Queryset evaluation

`queryset.filter(tags__id__in=tag_ids)` is a SQL join: the result has one
row per (recipe, matching child) pair, so a recipe with several matching
children appears several times until `.distinct()` collapses the rows.
`.order_by('-id')` sorts by primary key, descending. -/

/-- Join-semantics filter: one copy of `r` per child of `r` whose id is in
`filterIds`. -/
def joinFilter (filterIds : List Int) (children : Recipe → List Nat)
    (rs : List Recipe) : List Recipe :=
  rs.flatMap (fun r =>
    ((children r).filter (fun (c : Nat) => decide ((c : Int) ∈ filterIds))).map
      (fun _ => r))

/-- `.distinct()`: keep the first row for each primary key. -/
def dedupBy {α : Type} (key : α → Nat) : List α → List α
  | [] => []
  | a :: as => a :: dedupBy key (as.filter (fun b => decide (key b ≠ key a)))
  termination_by l => l.length
  decreasing_by
    simp only [List.length_cons]
    exact Nat.lt_succ_of_le (List.length_filter_le _ _)

/-- Insertion step of `.order_by(...)`: `le a b` means `a` may precede `b`. -/
def insertBy {α : Type} (le : α → α → Bool) (a : α) : List α → List α
  | [] => [a]
  | b :: bs => if le a b then a :: b :: bs else b :: insertBy le a bs

/-- `.order_by(...)` as a stable insertion sort. -/
def sortBy {α : Type} (le : α → α → Bool) : List α → List α
  | [] => []
  | a :: as => insertBy le a (sortBy le as)

/-- `order_by('-id')`: larger primary keys first. -/
def recipeLeDesc (a b : Recipe) : Bool := decide (b.id ≤ a.id)

/-- A conditionally applied join-filter: the `if tags:` / `if ingredients:`
branches of `get_queryset` at the level of parsed id sets. -/
def optJoinFilter (ids? : Option (List Int)) (children : Recipe → List Nat)
    (rs : List Recipe) : List Recipe :=
  match ids? with
  | some ids => joinFilter ids children rs
  | none => rs

/-- Core of `RecipeViewSet.get_queryset` after parameter parsing: apply the
optional tag join-filter, the optional ingredient join-filter, the owner
filter, then `.order_by('-id').distinct()`. -/
def recipeListCore (u : Nat) (tagIds ingIds : Option (List Int)) (db : DB) :
    List Recipe :=
  sortBy recipeLeDesc (dedupBy Recipe.id
    ((optJoinFilter ingIds Recipe.ingredients
        (optJoinFilter tagIds Recipe.tags db.recipes)).filter
      (fun r => decide (r.user = u))))

/-- Outcome of the list endpoint.  `validationError` is the recoverable
field-level client error DRF would produce from a raised
`serializers.ValidationError`; `serverError` is an exception that escapes
the view (Django turns it into a 500). -/
inductive ListOutcome where
  | ok : List Recipe → ListOutcome
  | validationError : ListOutcome
  | serverError : ListOutcome
  deriving DecidableEq, Repr

/-- `RecipeViewSet.get_queryset`: read the two parameters, parse each truthy
one with `_params_to_ints` (the tags parameter first, as in the source), and
evaluate the queryset.  A parse failure is an uncaught `ValueError`, hence
`serverError`. -/
def get_queryset (u : Nat) (tagsParam ingredientsParam : Option String)
    (db : DB) : ListOutcome :=
  if strTruthy tagsParam then
    match params_to_ints (tagsParam.getD "") with
    | none => .serverError
    | some tagIds =>
      if strTruthy ingredientsParam then
        match params_to_ints (ingredientsParam.getD "") with
        | none => .serverError
        | some ingIds => .ok (recipeListCore u (some tagIds) (some ingIds) db)
      else .ok (recipeListCore u (some tagIds) none db)
  else
    if strTruthy ingredientsParam then
      match params_to_ints (ingredientsParam.getD "") with
      | none => .serverError
      | some ingIds => .ok (recipeListCore u none (some ingIds) db)
    else .ok (recipeListCore u none none db)

/-- The filter predicate of spec §4.3: the filter is absent, or some child id
of the recipe lies in the requested id set. -/
def MatchesFilter (ids? : Option (List Int)) (childIds : List Nat) : Prop :=
  match ids? with
  | none => True
  | some ids => ∃ c : Nat, c ∈ childIds ∧ (c : Int) ∈ ids

instance (ids? : Option (List Int)) (childIds : List Nat) :
    Decidable (MatchesFilter ids? childIds) := by
  unfold MatchesFilter
  match ids? with
  | none => exact inferInstance
  | some ids => exact inferInstance

/-! ## Single-entity operations

DRF's generic detail machinery (`get_object`) looks the URL pk up inside the
view's `get_queryset()` result and raises `Http404` when no row matches; the
views configure no object-level permission, so a 403 can never arise from
ownership.  Detail requests carry no filter query parameters, so the recipe
detail queryset is `get_queryset` with both parameters absent. -/

/-- Outcome of a single-entity operation.  `forbidden` is the 403 outcome an
object-level permission denial would produce; the embedded operations never
return it, which is exactly the ownership-guard policy under scrutiny. -/
inductive DetailOutcome (α : Type) where
  | found : α → DetailOutcome α
  | notFound : DetailOutcome α
  | forbidden : DetailOutcome α
  deriving DecidableEq, Repr

/-- The queryset a recipe detail operation searches: `get_queryset` with no
query parameters. -/
def recipeDetailQueryset (u : Nat) (db : DB) : List Recipe :=
  recipeListCore u none none db

/-- GET of one recipe: `get_object` over the owner-scoped queryset. -/
def getRecipe (u pk : Nat) (db : DB) : DetailOutcome Recipe :=
  match (recipeDetailQueryset u db).find? (fun r => decide (r.id = pk)) with
  | some r => .found r
  | none => .notFound

/-- An update payload for the recipe serializer.  A field set to `none` is
absent from the request body.  The `user` field models a client attempting
to name an owner in the payload. -/
structure RecipePayload where
  title : Option String := none
  time_minutes : Option Nat := none
  price : Option Int := none
  link : Option String := none
  description : Option String := none
  user : Option Nat := none
  deriving Repr

/-- `RecipeDetailSerializer` applied as an update: its `Meta.fields` are
`id`, `title`, `time_minutes`, `price`, `link`, `description`, with `id`
read-only.  A `ModelSerializer` writes exactly its declared writable fields;
`user` is not among the fields, so a `user` key in the payload is dropped
without error, and `id` is never written. -/
def applyRecipeUpdate (r : Recipe) (p : RecipePayload) : Recipe :=
  { r with
    title := p.title.getD r.title
    time_minutes := p.time_minutes.getD r.time_minutes
    price := p.price.getD r.price
    link := p.link.getD r.link
    description := p.description.getD r.description }

/-- PATCH/PUT of one recipe: find it in the owner-scoped queryset, apply the
serializer, store the result; 404 and no state change when absent. -/
def updateRecipe (u pk : Nat) (p : RecipePayload) (db : DB) :
    DetailOutcome Recipe × DB :=
  match (recipeDetailQueryset u db).find? (fun r => decide (r.id = pk)) with
  | some r =>
    let r' := applyRecipeUpdate r p
    (.found r', { db with recipes := db.recipes.map (fun x => if x.id = pk then r' else x) })
  | none => (.notFound, db)

/-- DELETE of one recipe: find it in the owner-scoped queryset, delete the
row; 404 and no state change when absent. -/
def deleteRecipe (u pk : Nat) (db : DB) : DetailOutcome Unit × DB :=
  match (recipeDetailQueryset u db).find? (fun r => decide (r.id = pk)) with
  | some _ => (.found (), { db with recipes := db.recipes.filter (fun x => decide (x.id ≠ pk)) })
  | none => (.notFound, db)

/-! ## Tag / Ingredient viewsets (`BaseRecipeAttrViewset`)

`get_queryset` filters to the authenticated user and orders by `-name`.
The mixins are Update, List and Destroy; both `TagViewSet` and
`IngredientViewSet` inherit this behaviour unchanged, so one embedding
serves both tables. -/

/-- `order_by('-name')`: lexicographically larger names first. -/
def attrNameLeDesc (a b : AttrRow) : Bool := !decide (a.name < b.name)

/-- `BaseRecipeAttrViewset.get_queryset`. -/
def attrQueryset (u : Nat) (rows : List AttrRow) : List AttrRow :=
  sortBy attrNameLeDesc (rows.filter (fun t => decide (t.user = u)))

/-- PATCH/PUT of one tag or ingredient (the serializer's sole writable field
is `name`). -/
def updateAttr (u pk : Nat) (newName : String) (rows : List AttrRow) :
    DetailOutcome AttrRow × List AttrRow :=
  match (attrQueryset u rows).find? (fun t => decide (t.id = pk)) with
  | some t =>
    let t' := { t with name := newName }
    (.found t', rows.map (fun x => if x.id = pk then t' else x))
  | none => (.notFound, rows)

/-- DELETE of one tag or ingredient. -/
def deleteAttr (u pk : Nat) (rows : List AttrRow) :
    DetailOutcome Unit × List AttrRow :=
  match (attrQueryset u rows).find? (fun t => decide (t.id = pk)) with
  | some _ => (.found (), rows.filter (fun x => decide (x.id ≠ pk)))
  | none => (.notFound, rows)

/-! ## Association reconciliation

Modelled from the spec: the serializer-side reconciliation (the
`_get_or_create_tags` / `_get_or_create_ingredients` helpers and the
`create`/`update` overrides of the full recipe serializer) is exercised by
the tests and referenced by `views.py`, but is absent from the provided
`app/recipe/serializers.py`.  Spec §4.2 fixes its behaviour: for each
requested name in order, reuse the existing `(owner, name)` child row if
there is one, otherwise create a fresh row owned by `owner`; associating a
resolved reference is idempotent (`recipe.tags.add` adds no duplicate
association row); the recipe's association set is then replaced wholesale
by the resolved references. -/

/-- A child-entity table together with the store's id sequence. -/
structure AttrTable where
  rows : List AttrRow
  nextId : Nat
  deriving DecidableEq, Repr

/-- `get_or_create` lookup key: `(owner, name)`. -/
def lookupAttr (owner : Nat) (name : String) (rows : List AttrRow) :
    Option AttrRow :=
  rows.find? (fun t => decide (t.user = owner) && decide (t.name = name))

/-- Modelled from the spec (§4.2): resolve one requested name — reuse the
`(owner, name)` row or create a fresh one owned by `owner` — and add its id
to the association accumulator unless already present. -/
def reconcileStep (owner : Nat) (st : AttrTable × List Nat) (name : String) :
    AttrTable × List Nat :=
  match lookupAttr owner name st.1.rows with
  | some t => (st.1, if t.id ∈ st.2 then st.2 else st.2 ++ [t.id])
  | none =>
    let t : AttrRow := ⟨st.1.nextId, owner, name⟩
    (⟨st.1.rows ++ [t], st.1.nextId + 1⟩,
      if t.id ∈ st.2 then st.2 else st.2 ++ [t.id])

/-- Modelled from the spec (§4.2): reconcile a requested name list against a
child table, returning the updated table and the resolved association ids,
in request order. -/
def reconcile (owner : Nat) (names : List String) (tbl : AttrTable) :
    AttrTable × List Nat :=
  names.foldl (reconcileStep owner) (tbl, [])

/-- Modelled from the spec (§4.2): replace a recipe's tag association set
wholesale with the references resolved for its owner. -/
def updateRecipeTags (r : Recipe) (names : List String) (tbl : AttrTable) :
    Recipe × AttrTable :=
  let res := reconcile r.user names tbl
  ({ r with tags := res.2 }, res.1)

/-- Modelled from the spec (§4.2): the `tags` field of an update payload.
`none` means the field is absent from the body — reconciliation does not run
and the association set is untouched; `some names` runs reconciliation, so
`some []` clears the set while leaving the child table alone. -/
def updateTagsField (r : Recipe) (tagsField : Option (List String))
    (tbl : AttrTable) : Recipe × AttrTable :=
  match tagsField with
  | none => (r, tbl)
  | some names => updateRecipeTags r names tbl

/-! ## Routed API surface (`app/recipe/urls.py`)

The `DefaultRouter` maps a viewset's actions to routes.  `RecipeViewSet` is
a `ModelViewSet` plus the `upload_image` extra action;
`BaseRecipeAttrViewset` mixes in Update, List and Destroy only (no
Retrieve, no Create); `urls.py` registers `recipes` and `tags` — the
`IngredientViewSet` class exists in `views.py` but is never registered. -/

inductive Action where
  | list
  | retrieve
  | create
  | update
  | patch
  | destroy
  | upload_image
  deriving DecidableEq, Repr

/-- Actions of `RecipeViewSet` (ModelViewSet + the `upload_image` action).
`patch` is DRF's PATCH action on the detail route. -/
def recipeActions : List Action :=
  [.list, .retrieve, .create, .update, .patch, .destroy, .upload_image]

/-- Actions of `BaseRecipeAttrViewset`: Update, List, Destroy mixins only. -/
def attrActions : List Action := [.update, .patch, .list, .destroy]

/-- Actions of `IngredientViewSet`: defined in `views.py` (inheriting
`BaseRecipeAttrViewset`) even though `urls.py` never registers it. -/
def ingredientViewSetActions : List Action := attrActions

/-- `urls.py`: `router.register('recipes', ...)` and
`router.register('tags', ...)` — nothing else. -/
def routerRegistrations : List (String × List Action) :=
  [("recipes", recipeActions), ("tags", attrActions)]

/-- The actions reachable under a URL prefix; an unregistered prefix routes
nothing. -/
def routedActions (p : String) : List Action :=
  ((routerRegistrations.find? (fun e => decide (e.1 = p))).map Prod.snd).getD []

/-! ## Helper lemmas about the queryset pipeline -/

theorem mem_insertBy {α : Type} (le : α → α → Bool) (a x : α) (l : List α) :
    x ∈ insertBy le a l ↔ x = a ∨ x ∈ l := by
  induction l with
  | nil => simp [insertBy]
  | cons b bs ih =>
    by_cases h : le a b
    · simp [insertBy, h]
    · rw [insertBy, if_neg h]
      simp only [List.mem_cons, ih]
      tauto

theorem perm_insertBy {α : Type} (le : α → α → Bool) (a : α) (l : List α) :
    List.Perm (insertBy le a l) (a :: l) := by
  induction l with
  | nil => rfl
  | cons b bs ih =>
    by_cases h : le a b
    · rw [insertBy, if_pos h]
    · rw [insertBy, if_neg h]
      exact (ih.cons b).trans (List.Perm.swap a b bs)

theorem perm_sortBy {α : Type} (le : α → α → Bool) (l : List α) :
    List.Perm (sortBy le l) l := by
  induction l with
  | nil => rfl
  | cons a as ih => exact (perm_insertBy le a (sortBy le as)).trans (ih.cons a)

theorem pairwise_insertBy {α : Type} (le : α → α → Bool)
    (htot : ∀ a b, le a b = true ∨ le b a = true)
    (htrans : ∀ a b c, le a b = true → le b c = true → le a c = true)
    (a : α) (l : List α)
    (hl : l.Pairwise (fun x y => le x y = true)) :
    (insertBy le a l).Pairwise (fun x y => le x y = true) := by
  induction l with
  | nil => simp [insertBy]
  | cons b bs ih =>
    rcases List.pairwise_cons.mp hl with ⟨hb, hbs⟩
    by_cases h : le a b = true
    · rw [insertBy, if_pos h]
      refine List.pairwise_cons.mpr ⟨?_, hl⟩
      intro y hy
      rcases List.mem_cons.mp hy with rfl | hy
      · exact h
      · exact htrans a b y h (hb y hy)
    · rw [insertBy, if_neg h]
      refine List.pairwise_cons.mpr ⟨?_, ih hbs⟩
      intro y hy
      rcases (mem_insertBy le a y bs).mp hy with h1 | hy
      · rw [h1]
        rcases htot a b with h' | h'
        · exact absurd h' h
        · exact h'
      · exact hb y hy

theorem pairwise_sortBy {α : Type} (le : α → α → Bool)
    (htot : ∀ a b, le a b = true ∨ le b a = true)
    (htrans : ∀ a b c, le a b = true → le b c = true → le a c = true)
    (l : List α) :
    (sortBy le l).Pairwise (fun x y => le x y = true) := by
  induction l with
  | nil => simp [sortBy]
  | cons a as ih => exact pairwise_insertBy le htot htrans a _ ih

theorem mem_dedupBy_subset {α : Type} (key : α → Nat) :
    ∀ (n : Nat) (l : List α), l.length ≤ n → ∀ x, x ∈ dedupBy key l → x ∈ l := by
  intro n
  induction n with
  | zero =>
    intro l hl x hx
    rw [List.length_eq_zero.mp (Nat.le_zero.mp hl)] at hx ⊢
    simp [dedupBy] at hx
  | succ n ih =>
    intro l hl x hx
    cases l with
    | nil => simp [dedupBy] at hx
    | cons a as =>
      rw [dedupBy] at hx
      rcases List.mem_cons.mp hx with rfl | hx
      · exact List.mem_cons_self _ _
      · have hlen : (as.filter (fun b => decide (key b ≠ key a))).length ≤ n := by
          have h1 := List.length_filter_le (fun b => decide (key b ≠ key a)) as
          have h2 : as.length ≤ n := by simpa using Nat.le_of_succ_le_succ hl
          omega
        exact List.mem_cons_of_mem _ (List.mem_of_mem_filter (ih _ hlen x hx))

theorem pairwise_key_dedupBy {α : Type} (key : α → Nat) :
    ∀ (n : Nat) (l : List α), l.length ≤ n →
      (dedupBy key l).Pairwise (fun a b => key a ≠ key b) := by
  intro n
  induction n with
  | zero =>
    intro l hl
    rw [List.length_eq_zero.mp (Nat.le_zero.mp hl)]
    simp [dedupBy]
  | succ n ih =>
    intro l hl
    cases l with
    | nil => simp [dedupBy]
    | cons a as =>
      rw [dedupBy]
      have hlen : (as.filter (fun b => decide (key b ≠ key a))).length ≤ n := by
        have h1 := List.length_filter_le (fun b => decide (key b ≠ key a)) as
        have h2 : as.length ≤ n := by simpa using Nat.le_of_succ_le_succ hl
        omega
      refine List.pairwise_cons.mpr ⟨?_, ih _ hlen⟩
      intro b hb
      have hb' := mem_dedupBy_subset key _ _ (le_refl _) b hb
      have := List.of_mem_filter hb'
      intro hab
      simp only [decide_eq_true_eq] at this
      exact this hab.symm

theorem mem_dedupBy_of_mem {α : Type} (key : α → Nat) :
    ∀ (n : Nat) (l : List α), l.length ≤ n →
      (∀ a ∈ l, ∀ b ∈ l, key a = key b → a = b) →
      ∀ x ∈ l, x ∈ dedupBy key l := by
  intro n
  induction n with
  | zero =>
    intro l hl _ x hx
    rw [List.length_eq_zero.mp (Nat.le_zero.mp hl)] at hx
    simp at hx
  | succ n ih =>
    intro l hl hinj x hx
    cases l with
    | nil => simp at hx
    | cons a as =>
      rw [dedupBy]
      rcases List.mem_cons.mp hx with rfl | hx
      · exact List.mem_cons_self _ _
      · by_cases hk : key x = key a
        · have : x = a := hinj x (List.mem_cons_of_mem _ hx) a (List.mem_cons_self _ _) hk
          rw [this]
          exact List.mem_cons_self _ _
        · have hxf : x ∈ as.filter (fun b => decide (key b ≠ key a)) :=
            List.mem_filter.mpr ⟨hx, by simpa using hk⟩
          have hlen : (as.filter (fun b => decide (key b ≠ key a))).length ≤ n := by
            have h1 := List.length_filter_le (fun b => decide (key b ≠ key a)) as
            have h2 : as.length ≤ n := by simpa using Nat.le_of_succ_le_succ hl
            omega
          have hinj' : ∀ p ∈ as.filter (fun b => decide (key b ≠ key a)),
              ∀ q ∈ as.filter (fun b => decide (key b ≠ key a)), key p = key q → p = q := by
            intro p hp q hq hpq
            exact hinj p (List.mem_cons_of_mem _ (List.mem_of_mem_filter hp))
              q (List.mem_cons_of_mem _ (List.mem_of_mem_filter hq)) hpq
          exact List.mem_cons_of_mem _ (ih _ hlen hinj' x hxf)

theorem mem_joinFilter (ids : List Int) (children : Recipe → List Nat)
    (rs : List Recipe) (r : Recipe) :
    r ∈ joinFilter ids children rs ↔
      r ∈ rs ∧ ∃ c : Nat, c ∈ children r ∧ (c : Int) ∈ ids := by
  constructor
  · intro h
    rcases List.mem_flatMap.mp h with ⟨a, ha, hr⟩
    rcases List.mem_map.mp hr with ⟨c, hc, har⟩
    rcases List.mem_filter.mp hc with ⟨hc1, hc2⟩
    simp only [decide_eq_true_eq] at hc2
    subst har
    exact ⟨ha, c, hc1, hc2⟩
  · rintro ⟨hr, c, hc, hcid⟩
    exact List.mem_flatMap.mpr
      ⟨r, hr, List.mem_map.mpr ⟨c, List.mem_filter.mpr ⟨hc, by simpa using hcid⟩, rfl⟩⟩

theorem mem_optJoinFilter (ids? : Option (List Int)) (children : Recipe → List Nat)
    (rs : List Recipe) (r : Recipe) :
    r ∈ optJoinFilter ids? children rs ↔
      r ∈ rs ∧ MatchesFilter ids? (children r) := by
  cases ids? with
  | none => simp [optJoinFilter, MatchesFilter]
  | some ids => simp [optJoinFilter, MatchesFilter, mem_joinFilter]

/-- The working list inside `recipeListCore`, right before
`.order_by('-id').distinct()`: both conditional join-filters followed by the
owner filter. -/
def preDistinct (u : Nat) (tagIds ingIds : Option (List Int)) (db : DB) :
    List Recipe :=
  (optJoinFilter ingIds Recipe.ingredients
      (optJoinFilter tagIds Recipe.tags db.recipes)).filter
    (fun r => decide (r.user = u))

theorem recipeListCore_eq (u : Nat) (tagIds ingIds : Option (List Int))
    (db : DB) :
    recipeListCore u tagIds ingIds db =
      sortBy recipeLeDesc (dedupBy Recipe.id (preDistinct u tagIds ingIds db)) := rfl

theorem mem_preDistinct (u : Nat) (tagIds ingIds : Option (List Int)) (db : DB)
    (r : Recipe) :
    r ∈ preDistinct u tagIds ingIds db ↔
      r ∈ db.recipes ∧ r.user = u ∧
        MatchesFilter tagIds r.tags ∧ MatchesFilter ingIds r.ingredients := by
  constructor
  · intro h
    rcases List.mem_filter.mp h with ⟨h2, hu⟩
    simp only [decide_eq_true_eq] at hu
    rcases (mem_optJoinFilter _ _ _ _).mp h2 with ⟨h3, hing⟩
    rcases (mem_optJoinFilter _ _ _ _).mp h3 with ⟨h4, htag⟩
    exact ⟨h4, hu, htag, hing⟩
  · rintro ⟨h1, h2, h3, h4⟩
    exact List.mem_filter.mpr
      ⟨(mem_optJoinFilter _ _ _ _).mpr ⟨(mem_optJoinFilter _ _ _ _).mpr ⟨h1, h3⟩, h4⟩,
        by simpa using h2⟩

theorem mem_recipeListCore (u : Nat) (tagIds ingIds : Option (List Int))
    (db : DB) (hids : (db.recipes.map Recipe.id).Nodup) (r : Recipe) :
    r ∈ recipeListCore u tagIds ingIds db ↔
      r ∈ db.recipes ∧ r.user = u ∧
        MatchesFilter tagIds r.tags ∧ MatchesFilter ingIds r.ingredients := by
  have hinj : ∀ a ∈ db.recipes, ∀ b ∈ db.recipes, a.id = b.id → a = b :=
    fun _ ha _ hb h => List.inj_on_of_nodup_map hids ha hb h
  have hinjL : ∀ a ∈ preDistinct u tagIds ingIds db,
      ∀ b ∈ preDistinct u tagIds ingIds db, a.id = b.id → a = b := by
    intro a ha b hb h
    exact hinj a ((mem_preDistinct _ _ _ _ _).mp ha).1
      b ((mem_preDistinct _ _ _ _ _).mp hb).1 h
  rw [recipeListCore_eq, (perm_sortBy recipeLeDesc _).mem_iff]
  rw [← mem_preDistinct u tagIds ingIds db r]
  constructor
  · exact fun h =>
      mem_dedupBy_subset Recipe.id (preDistinct u tagIds ingIds db).length _
        (le_refl _) r h
  · exact fun h =>
      mem_dedupBy_of_mem Recipe.id (preDistinct u tagIds ingIds db).length _
        (le_refl _) hinjL r h

theorem nodup_recipeListCore (u : Nat) (tagIds ingIds : Option (List Int))
    (db : DB) : (recipeListCore u tagIds ingIds db).Nodup := by
  rw [recipeListCore_eq]
  apply ((perm_sortBy recipeLeDesc _).nodup_iff).mpr
  have hp := pairwise_key_dedupBy Recipe.id
    (preDistinct u tagIds ingIds db).length _ (le_refl _)
  exact hp.imp (fun h => fun he => h (congrArg Recipe.id he))

theorem sorted_recipeListCore (u : Nat) (tagIds ingIds : Option (List Int))
    (db : DB) :
    (recipeListCore u tagIds ingIds db).Pairwise (fun a b => b.id < a.id) := by
  rw [recipeListCore_eq]
  have hs := pairwise_sortBy recipeLeDesc
    (fun a b => by simp only [recipeLeDesc, decide_eq_true_eq]; omega)
    (fun a b c => by simp only [recipeLeDesc, decide_eq_true_eq]; omega)
    (dedupBy Recipe.id (preDistinct u tagIds ingIds db))
  have hne : (sortBy recipeLeDesc
      (dedupBy Recipe.id (preDistinct u tagIds ingIds db))).Pairwise
        (fun a b => a.id ≠ b.id) := by
    refine ((perm_sortBy _ _).pairwise_iff ?_).mpr ?_
    · intro a b h he
      exact h he.symm
    · exact pairwise_key_dedupBy Recipe.id
        (preDistinct u tagIds ingIds db).length _ (le_refl _)
  refine (hs.and hne).imp ?_
  intro a b h
  have h1 : b.id ≤ a.id := by
    have := h.1
    simpa [recipeLeDesc] using this
  exact lt_of_le_of_ne h1 (fun he => h.2 he.symm)

/-! ## Concrete sample data for the witnesses -/

def sampleR1 : Recipe :=
  ⟨1, 1, "Thai Vegetable Curry", 30, 525, "d1", "l1", [10, 12], [20]⟩

def sampleR2 : Recipe :=
  ⟨2, 2, "Eggplant Parmesan", 22, 945, "d2", "l2", [10], [21]⟩

def sampleR3 : Recipe :=
  ⟨3, 1, "Chickpea Curry", 45, 309, "d3", "l3", [11, 12], [20, 22]⟩

def sampleDB : DB :=
  { recipes := [sampleR1, sampleR2, sampleR3]
    tags := [⟨10, 1, "Vegan"⟩, ⟨11, 1, "Vegetarian"⟩, ⟨12, 1, "Spicy"⟩, ⟨13, 2, "Bread"⟩]
    ingredients := [⟨20, 1, "Curry Paste"⟩, ⟨21, 2, "Cheese"⟩, ⟨22, 1, "Chickpeas"⟩] }

/-! ## Claim theorems -/

/-- C1: for every user and every pair of optional filter id sets, the recipe
list operation includes a recipe iff its owner is the requesting user, AND
(the tag filter is absent OR the recipe has a tag whose id is in it), AND
(the ingredient filter is absent OR the recipe has an ingredient whose id is
in it); with both filters present both conditions must hold. -/
theorem C1_recipe_list_filter (u : Nat) (tagIds ingIds : Option (List Int))
    (db : DB) (hids : (db.recipes.map Recipe.id).Nodup) (r : Recipe) :
    r ∈ recipeListCore u tagIds ingIds db ↔
      r ∈ db.recipes ∧ r.user = u ∧
        MatchesFilter tagIds r.tags ∧ MatchesFilter ingIds r.ingredients :=
  mem_recipeListCore u tagIds ingIds db hids r

/-- Witness for C1 at a concrete store: both filters present; `sampleR3`
(owned by user 1, tag 12, ingredient 20) qualifies. -/
theorem C1_recipe_list_filter_witness :
    (sampleDB.recipes.map Recipe.id).Nodup ∧
      (sampleR3 ∈ recipeListCore 1 (some [12]) (some [20]) sampleDB ↔
        sampleR3 ∈ sampleDB.recipes ∧ sampleR3.user = 1 ∧
          MatchesFilter (some [12]) sampleR3.tags ∧
          MatchesFilter (some [20]) sampleR3.ingredients) :=
  ⟨by decide, C1_recipe_list_filter 1 (some [12]) (some [20]) sampleDB (by decide) sampleR3⟩

/-- C5: in every filtered recipe list each qualifying recipe appears exactly
once — even when several of its tags or ingredients match the filter sets —
and the final list is sorted descending by creation-sequence id. -/
theorem C5_dedup_and_ordering (u : Nat) (tagIds ingIds : Option (List Int))
    (db : DB) (hids : (db.recipes.map Recipe.id).Nodup) :
    (∀ r, r ∈ db.recipes → r.user = u → MatchesFilter tagIds r.tags →
      MatchesFilter ingIds r.ingredients →
        (recipeListCore u tagIds ingIds db).count r = 1) ∧
    (recipeListCore u tagIds ingIds db).Pairwise (fun a b => b.id < a.id) := by
  refine ⟨?_, sorted_recipeListCore u tagIds ingIds db⟩
  intro r h1 h2 h3 h4
  have hm : r ∈ recipeListCore u tagIds ingIds db :=
    (mem_recipeListCore u tagIds ingIds db hids r).mpr ⟨h1, h2, h3, h4⟩
  exact List.count_eq_one_of_mem (nodup_recipeListCore u tagIds ingIds db) hm

/-- Witness for C5 at a concrete store; the filter set `[11, 12]` matches
`sampleR3` through two of its tags, so the join duplicates it before
`.distinct()`. -/
theorem C5_dedup_and_ordering_witness :
    (sampleDB.recipes.map Recipe.id).Nodup ∧
      ((∀ r, r ∈ sampleDB.recipes → r.user = 1 →
        MatchesFilter (some [11, 12]) r.tags → MatchesFilter none r.ingredients →
          (recipeListCore 1 (some [11, 12]) none sampleDB).count r = 1) ∧
      (recipeListCore 1 (some [11, 12]) none sampleDB).Pairwise
        (fun a b => b.id < a.id)) :=
  ⟨by decide, C5_dedup_and_ordering 1 (some [11, 12]) none sampleDB (by decide)⟩

/-- C10: a `tags` or `ingredients` query parameter whose value is the empty
string is treated exactly as an absent parameter — Python truthiness makes
`if tags:` skip the branch, so nothing is parsed, no error is raised and the
list is not narrowed by that filter. -/
theorem C10_empty_param_like_absent (u : Nat) (db : DB) (other : Option String) :
    get_queryset u (some "") other db = get_queryset u none other db ∧
    get_queryset u other (some "") db = get_queryset u other none db := by
  constructor
  · rfl
  · cases other with
    | none => rfl
    | some s =>
      by_cases h : strTruthy (some s) = true
      · unfold get_queryset
        rw [if_pos h, if_pos h]
        rfl
      · unfold get_queryset
        rw [if_neg h, if_neg h]
        rfl

/-- C7 counterexample: with the non-integer token `"abc"` as the tags
parameter the list operation ends in a server fault — the `ValueError`
raised by `int` escapes `_params_to_ints` and the view uncaught — rather
than the recoverable field-level ValidationError the claim requires. -/
theorem C7_counterexample :
    get_queryset 1 (some "abc") none sampleDB = ListOutcome.serverError ∧
      ListOutcome.serverError ≠ ListOutcome.validationError := by
  constructor
  · decide
  · decide

/-- C7 (amended): for a non-empty filter parameter string, if every
comma-separated token parses as an integer the list operation filters by
exactly the parsed id list; if some token is not an integer the operation
fails fatally (an unhandled error, a server fault), not with a recoverable
client-input ValidationError. -/
theorem C7_filter_param_parsing (u : Nat) (db : DB) (s : String)
    (hs : s ≠ "") :
    (∀ ids, params_to_ints s = some ids →
      get_queryset u (some s) none db = .ok (recipeListCore u (some ids) none db) ∧
      get_queryset u none (some s) db = .ok (recipeListCore u none (some ids) db)) ∧
    (params_to_ints s = none →
      get_queryset u (some s) none db = .serverError ∧
      get_queryset u none (some s) db = .serverError) := by
  have ht : strTruthy (some s) = true := by
    simpa [strTruthy] using hs
  have hf : ¬ strTruthy (none : Option String) = true := by decide
  constructor
  · intro ids hids
    constructor
    · unfold get_queryset
      rw [if_pos ht, Option.getD_some, hids]
      rfl
    · unfold get_queryset
      rw [if_neg hf, if_pos ht, Option.getD_some, hids]
  · intro hnone
    constructor
    · unfold get_queryset
      rw [if_pos ht, Option.getD_some, hnone]
    · unfold get_queryset
      rw [if_neg hf, if_pos ht, Option.getD_some, hnone]

/-- Witness for C7 (amended) at the concrete parameter `"10,12"`. -/
theorem C7_filter_param_parsing_witness :
    ("10,12" : String) ≠ "" ∧
      ((∀ ids, params_to_ints "10,12" = some ids →
        get_queryset 1 (some "10,12") none sampleDB =
          .ok (recipeListCore 1 (some ids) none sampleDB) ∧
        get_queryset 1 none (some "10,12") sampleDB =
          .ok (recipeListCore 1 none (some ids) sampleDB)) ∧
      (params_to_ints "10,12" = none →
        get_queryset 1 (some "10,12") none sampleDB = .serverError ∧
        get_queryset 1 none (some "10,12") sampleDB = .serverError)) :=
  ⟨by decide, C7_filter_param_parsing 1 sampleDB "10,12" (by decide)⟩

theorem mem_attrQueryset (u : Nat) (rows : List AttrRow) (t : AttrRow) :
    t ∈ attrQueryset u rows ↔ t ∈ rows ∧ t.user = u := by
  rw [attrQueryset, (perm_sortBy attrNameLeDesc _).mem_iff, List.mem_filter]
  simp

/-- A recipe owned by someone else is invisible to the detail queryset: the
pk lookup comes back empty. -/
theorem recipe_find_cross_user_none (db : DB) (V : Nat) (R : Recipe)
    (hids : (db.recipes.map Recipe.id).Nodup) (hR : R ∈ db.recipes)
    (hV : R.user ≠ V) :
    (recipeDetailQueryset V db).find? (fun r => decide (r.id = R.id)) = none := by
  rw [List.find?_eq_none]
  intro x hx
  simp only [decide_eq_true_eq]
  intro hxid
  have hxm := (mem_recipeListCore V none none db hids x).mp hx
  have hxR : x = R := List.inj_on_of_nodup_map hids hxm.1 hR hxid
  rw [hxR] at hxm
  exact hV hxm.2.1

/-- The analogue for tag/ingredient rows. -/
theorem attr_find_cross_user_none (rows : List AttrRow) (V : Nat) (T : AttrRow)
    (hids : (rows.map AttrRow.id).Nodup) (hT : T ∈ rows) (hV : T.user ≠ V) :
    (attrQueryset V rows).find? (fun t => decide (t.id = T.id)) = none := by
  rw [List.find?_eq_none]
  intro x hx
  simp only [decide_eq_true_eq]
  intro hxid
  have hxm := (mem_attrQueryset V rows x).mp hx
  have hxT : x = T := List.inj_on_of_nodup_map hids hxm.1 hT hxid
  rw [hxT] at hxm
  exact hV hxm.2

/-- C2: for a recipe R owned by U and any other user V, a single-entity
read, update or delete of R issued as V is NotFound — never Forbidden — and
the store is unchanged by the attempt; likewise for the single-entity
operations the Tag and Ingredient viewsets expose (update, delete). -/
theorem C2_cross_user_not_found (db : DB) (V : Nat) (R : Recipe)
    (p : RecipePayload) (T I : AttrRow) (newName : String)
    (hids : (db.recipes.map Recipe.id).Nodup)
    (hR : R ∈ db.recipes) (hV : R.user ≠ V)
    (htids : (db.tags.map AttrRow.id).Nodup) (hT : T ∈ db.tags) (hTV : T.user ≠ V)
    (hiids : (db.ingredients.map AttrRow.id).Nodup) (hI : I ∈ db.ingredients)
    (hIV : I.user ≠ V) :
    getRecipe V R.id db = .notFound ∧
    updateRecipe V R.id p db = (.notFound, db) ∧
    deleteRecipe V R.id db = (.notFound, db) ∧
    updateAttr V T.id newName db.tags = (.notFound, db.tags) ∧
    deleteAttr V T.id db.tags = (.notFound, db.tags) ∧
    updateAttr V I.id newName db.ingredients = (.notFound, db.ingredients) ∧
    deleteAttr V I.id db.ingredients = (.notFound, db.ingredients) := by
  have hfr := recipe_find_cross_user_none db V R hids hR hV
  have hft := attr_find_cross_user_none db.tags V T htids hT hTV
  have hfi := attr_find_cross_user_none db.ingredients V I hiids hI hIV
  refine ⟨?_, ?_, ?_, ?_, ?_, ?_, ?_⟩
  · rw [getRecipe, hfr]
  · rw [updateRecipe, hfr]
  · rw [deleteRecipe, hfr]
  · rw [updateAttr, hft]
  · rw [deleteAttr, hft]
  · rw [updateAttr, hfi]
  · rw [deleteAttr, hfi]

/-- Witness for C2: user 2 attacks `sampleR1`, tag 10 and ingredient 20,
all owned by user 1. -/
theorem C2_cross_user_not_found_witness :
    ((sampleDB.recipes.map Recipe.id).Nodup ∧ sampleR1 ∈ sampleDB.recipes ∧
      sampleR1.user ≠ 2) ∧
    (getRecipe 2 sampleR1.id sampleDB = .notFound ∧
    updateRecipe 2 sampleR1.id {} sampleDB = (.notFound, sampleDB) ∧
    deleteRecipe 2 sampleR1.id sampleDB = (.notFound, sampleDB) ∧
    updateAttr 2 10 "Stolen" sampleDB.tags = (.notFound, sampleDB.tags) ∧
    deleteAttr 2 10 sampleDB.tags = (.notFound, sampleDB.tags) ∧
    updateAttr 2 20 "Stolen" sampleDB.ingredients = (.notFound, sampleDB.ingredients) ∧
    deleteAttr 2 20 sampleDB.ingredients = (.notFound, sampleDB.ingredients)) :=
  ⟨⟨by decide, by decide, by decide⟩,
    C2_cross_user_not_found sampleDB 2 sampleR1 {} ⟨10, 1, "Vegan"⟩
      ⟨20, 1, "Curry Paste"⟩ "Stolen" (by decide) (by decide) (by decide)
      (by decide) (by decide) (by decide) (by decide) (by decide) (by decide)⟩

/-- C6: no update path can change a recipe's owner.  The serializer's
writable fields do not include `user`, so a payload naming a different owner
is applied without error, leaves `user` (and `id`) unchanged and applies all
the supplied writable fields; store-wide, an update preserves every
recipe's `(id, owner)` pair. -/
theorem C6_owner_immutable (r : Recipe) (p : RecipePayload) (u pk : Nat)
    (db : DB) (hids : (db.recipes.map Recipe.id).Nodup) :
    (applyRecipeUpdate r p).user = r.user ∧
    (applyRecipeUpdate r p).id = r.id ∧
    (applyRecipeUpdate r p).title = p.title.getD r.title ∧
    (applyRecipeUpdate r p).time_minutes = p.time_minutes.getD r.time_minutes ∧
    (applyRecipeUpdate r p).price = p.price.getD r.price ∧
    (applyRecipeUpdate r p).link = p.link.getD r.link ∧
    (applyRecipeUpdate r p).description = p.description.getD r.description ∧
    (updateRecipe u pk p db).2.recipes.map (fun x => (x.id, x.user)) =
      db.recipes.map (fun x => (x.id, x.user)) := by
  refine ⟨rfl, rfl, rfl, rfl, rfl, rfl, rfl, ?_⟩
  rw [updateRecipe]
  cases hf : (recipeDetailQueryset u db).find? (fun r => decide (r.id = pk)) with
  | none => rfl
  | some r0 =>
    simp only [List.map_map]
    apply List.map_congr_left
    intro x hx
    simp only [Function.comp_apply]
    by_cases hxpk : x.id = pk
    · rw [if_pos hxpk]
      have hr0q := List.mem_of_find?_eq_some hf
      have hr0pk : r0.id = pk := by
        have := List.find?_some hf
        simpa using this
      have hr0db : r0 ∈ db.recipes :=
        ((mem_recipeListCore u none none db hids r0).mp hr0q).1
      have hxr0 : x = r0 :=
        List.inj_on_of_nodup_map hids hx hr0db (by rw [hxpk, hr0pk])
      rw [hxr0]
      rfl
    · rw [if_neg hxpk]

/-- Witness for C6: a payload that names user 99 as owner, applied to
`sampleR1` (owned by user 1). -/
theorem C6_owner_immutable_witness :
    (sampleDB.recipes.map Recipe.id).Nodup ∧
    ((applyRecipeUpdate sampleR1 { title := some "New", user := some 99 }).user =
        sampleR1.user ∧
      (applyRecipeUpdate sampleR1 { title := some "New", user := some 99 }).id =
        sampleR1.id ∧
      (applyRecipeUpdate sampleR1 { title := some "New", user := some 99 }).title =
        (some "New").getD sampleR1.title ∧
      (applyRecipeUpdate sampleR1 { title := some "New", user := some 99 }).time_minutes =
        (none : Option Nat).getD sampleR1.time_minutes ∧
      (applyRecipeUpdate sampleR1 { title := some "New", user := some 99 }).price =
        (none : Option Int).getD sampleR1.price ∧
      (applyRecipeUpdate sampleR1 { title := some "New", user := some 99 }).link =
        (none : Option String).getD sampleR1.link ∧
      (applyRecipeUpdate sampleR1 { title := some "New", user := some 99 }).description =
        (none : Option String).getD sampleR1.description ∧
      (updateRecipe 1 1 { title := some "New", user := some 99 } sampleDB).2.recipes.map
          (fun x => (x.id, x.user)) =
        sampleDB.recipes.map (fun x => (x.id, x.user))) :=
  ⟨by decide,
    C6_owner_immutable sampleR1 { title := some "New", user := some 99 } 1 1 sampleDB
      (by decide)⟩

/-! ## Lemmas about reconciliation -/

/-- At most one child row per `(owner, name)` key — the natural-key
invariant the store's uniqueness constraint maintains (spec §5, §6). -/
def KeyUnique (rows : List AttrRow) : Prop :=
  rows.Pairwise (fun a b => ¬(a.user = b.user ∧ a.name = b.name))

instance (rows : List AttrRow) : Decidable (KeyUnique rows) := by
  unfold KeyUnique
  infer_instance

theorem lookupAttr_append (owner : Nat) (name : String) (l1 l2 : List AttrRow) :
    lookupAttr owner name (l1 ++ l2) =
      (lookupAttr owner name l1).or (lookupAttr owner name l2) := by
  simp [lookupAttr, List.find?_append]

theorem reconcileStep_found (owner : Nat) (st : AttrTable × List Nat)
    (name : String) (t : AttrRow) (h : lookupAttr owner name st.1.rows = some t) :
    reconcileStep owner st name =
      (st.1, if t.id ∈ st.2 then st.2 else st.2 ++ [t.id]) := by
  simp only [reconcileStep, h]

theorem reconcileStep_new (owner : Nat) (st : AttrTable × List Nat)
    (name : String) (h : lookupAttr owner name st.1.rows = none) :
    reconcileStep owner st name =
      (⟨st.1.rows ++ [⟨st.1.nextId, owner, name⟩], st.1.nextId + 1⟩,
        if st.1.nextId ∈ st.2 then st.2 else st.2 ++ [st.1.nextId]) := by
  simp only [reconcileStep, h]

theorem lookupAttr_isSome_step (owner : Nat) (st : AttrTable × List Nat)
    (name m : String) (h : (lookupAttr owner m st.1.rows).isSome) :
    (lookupAttr owner m (reconcileStep owner st name).1.rows).isSome := by
  cases hlk : lookupAttr owner name st.1.rows with
  | some t => rw [reconcileStep_found owner st name t hlk]; exact h
  | none =>
    rw [reconcileStep_new owner st name hlk]
    rcases Option.isSome_iff_exists.mp h with ⟨t2, ht2⟩
    show (lookupAttr owner m (st.1.rows ++ [_])).isSome
    rw [lookupAttr_append, ht2]
    rfl

theorem lookupAttr_singleton_self (owner : Nat) (name : String) (i : Nat) :
    lookupAttr owner name [⟨i, owner, name⟩] = some ⟨i, owner, name⟩ := by
  rw [lookupAttr]
  apply List.find?_cons_of_pos
  simp

theorem lookupAttr_isSome_foldl (owner : Nat) :
    ∀ (names : List String) (st : AttrTable × List Nat) (m : String),
      (lookupAttr owner m st.1.rows).isSome →
      (lookupAttr owner m ((names.foldl (reconcileStep owner) st).1.rows)).isSome := by
  intro names
  induction names with
  | nil => intro st m h; exact h
  | cons n ns ih =>
    intro st m h
    rw [List.foldl_cons]
    exact ih _ m (lookupAttr_isSome_step owner st n m h)

theorem lookupAttr_isSome_step_self (owner : Nat) (st : AttrTable × List Nat)
    (name : String) :
    (lookupAttr owner name (reconcileStep owner st name).1.rows).isSome := by
  cases hlk : lookupAttr owner name st.1.rows with
  | some t =>
    rw [reconcileStep_found owner st name t hlk]
    show (lookupAttr owner name st.1.rows).isSome
    rw [hlk]
    rfl
  | none =>
    rw [reconcileStep_new owner st name hlk]
    show (lookupAttr owner name (st.1.rows ++ [_])).isSome
    rw [lookupAttr_append, hlk, Option.none_or, lookupAttr_singleton_self]
    rfl

theorem reconcile_all_present (owner : Nat) :
    ∀ (names : List String) (st : AttrTable × List Nat) (m : String), m ∈ names →
      (lookupAttr owner m ((names.foldl (reconcileStep owner) st).1.rows)).isSome := by
  intro names
  induction names with
  | nil => intro st m h; simp at h
  | cons n ns ih =>
    intro st m h
    rw [List.foldl_cons]
    rcases List.mem_cons.mp h with rfl | hm
    · exact lookupAttr_isSome_foldl owner ns _ m (lookupAttr_isSome_step_self owner st m)
    · exact ih _ m hm

theorem reconcile_noop_of_present (owner : Nat) :
    ∀ (names : List String) (st : AttrTable × List Nat),
      (∀ n ∈ names, (lookupAttr owner n st.1.rows).isSome) →
      (names.foldl (reconcileStep owner) st).1 = st.1 := by
  intro names
  induction names with
  | nil => intro st _; rfl
  | cons n ns ih =>
    intro st h
    rw [List.foldl_cons]
    rcases Option.isSome_iff_exists.mp (h n (List.mem_cons_self _ _)) with ⟨t, ht⟩
    have hstep : (reconcileStep owner st n).1 = st.1 := by
      rw [reconcileStep_found owner st n t ht]
    have h' : ∀ m ∈ ns, (lookupAttr owner m (reconcileStep owner st n).1.rows).isSome := by

      intro m hm
      rw [hstep]
      exact h m (List.mem_cons_of_mem _ hm)
    rw [ih _ h', hstep]

theorem card_insert_erase (n : String) (T : Finset String) :
    (insert n T).card = (T.erase n).card + 1 := by
  by_cases h : n ∈ T
  · rw [Finset.insert_eq_self.mpr h, ← Finset.card_erase_add_one h]
  · rw [Finset.card_insert_of_not_mem h, Finset.erase_eq_of_not_mem h]

theorem lookupAttr_append_single_none (owner : Nat) (m : String)
    (rows : List AttrRow) (t : AttrRow) :
    lookupAttr owner m (rows ++ [t]) = none ↔
      lookupAttr owner m rows = none ∧ ¬(t.user = owner ∧ t.name = m) := by
  rw [lookupAttr_append]
  cases h : lookupAttr owner m rows with
  | some x => simp
  | none =>
    rw [Option.none_or]
    constructor
    · intro hnone
      refine ⟨rfl, ?_⟩
      intro hc
      rw [lookupAttr, List.find?_cons_of_pos _ (by simp [hc.1, hc.2])] at hnone
      exact Option.noConfusion hnone
    · rintro ⟨-, hc⟩
      rw [lookupAttr]
      apply List.find?_eq_none.mpr
      intro x hx
      simp only [List.mem_singleton] at hx
      subst hx
      simp only [Bool.and_eq_true, decide_eq_true_eq]
      exact hc

theorem reconcile_growth (owner : Nat) :
    ∀ (names : List String) (tbl : AttrTable) (acc : List Nat),
      ((names.foldl (reconcileStep owner) (tbl, acc)).1.rows).length =
        tbl.rows.length +
          (names.toFinset.filter (fun n => lookupAttr owner n tbl.rows = none)).card := by
  intro names
  induction names with
  | nil => intro tbl acc; simp
  | cons n ns ih =>
    intro tbl acc
    rw [List.foldl_cons]
    cases hlk : lookupAttr owner n tbl.rows with
    | some t =>
      rw [reconcileStep_found owner (tbl, acc) n t hlk, ih tbl _]
      congr 1
      rw [List.toFinset_cons, Finset.filter_insert, if_neg (by simp [hlk])]
    | none =>
      rw [reconcileStep_new owner (tbl, acc) n hlk, ih _ _]
      show (tbl.rows ++ [_]).length + _ = _
      rw [List.length_append, List.toFinset_cons, Finset.filter_insert, if_pos hlk]
      have hset : ns.toFinset.filter
          (fun m => lookupAttr owner m
            (tbl.rows ++ [⟨tbl.nextId, owner, n⟩]) = none) =
          (ns.toFinset.filter (fun m => lookupAttr owner m tbl.rows = none)).erase n := by
        ext m
        simp only [Finset.mem_filter, Finset.mem_erase,
          lookupAttr_append_single_none]
        constructor
        · rintro ⟨hm, h1, h2⟩
          refine ⟨fun hmn => h2 (by simp [hmn]), hm, h1⟩
        · rintro ⟨hmn, hm, h1⟩
          exact ⟨hm, h1, fun hc => hmn hc.2.symm⟩
      rw [hset, card_insert_erase]
      simp only [List.length_singleton]
      omega

theorem keyUnique_append_new (rows : List AttrRow) (t : AttrRow)
    (hk : KeyUnique rows) (hnone : lookupAttr t.user t.name rows = none) :
    KeyUnique (rows ++ [t]) := by
  rw [KeyUnique, List.pairwise_append]
  refine ⟨hk, by simp, ?_⟩
  intro a ha b hb
  simp only [List.mem_singleton] at hb
  subst hb
  rintro ⟨hu, hn⟩
  have := List.find?_eq_none.mp hnone a ha
  simp only [Bool.and_eq_true, decide_eq_true_eq] at this
  exact this ⟨hu, hn⟩

theorem nodup_append_single (l : List Nat) (a : Nat) (h : l.Nodup) (ha : a ∉ l) :
    (l ++ [a]).Nodup := by
  rw [List.nodup_append]
  refine ⟨h, List.nodup_singleton a, ?_⟩
  intro x hx hxa
  simp only [List.mem_singleton] at hxa
  subst hxa
  exact ha hx

theorem reconcile_keyUnique (owner : Nat) :
    ∀ (names : List String) (tbl : AttrTable) (acc : List Nat),
      KeyUnique tbl.rows →
      KeyUnique (names.foldl (reconcileStep owner) (tbl, acc)).1.rows := by
  intro names
  induction names with
  | nil => intro tbl acc hk; exact hk
  | cons n ns ih =>
    intro tbl acc hk
    rw [List.foldl_cons]
    cases hlk : lookupAttr owner n tbl.rows with
    | some t =>
      rw [reconcileStep_found owner (tbl, acc) n t hlk]
      exact ih tbl _ hk
    | none =>
      rw [reconcileStep_new owner (tbl, acc) n hlk]
      exact ih _ _ (keyUnique_append_new tbl.rows ⟨tbl.nextId, owner, n⟩ hk hlk)

theorem reconcile_assoc_ok (owner : Nat) :
    ∀ (names : List String) (tbl : AttrTable) (acc : List Nat),
      acc.Nodup →
      (∀ i ∈ acc, ∃ t ∈ tbl.rows, t.id = i ∧ t.user = owner) →
      (names.foldl (reconcileStep owner) (tbl, acc)).2.Nodup ∧
      (∀ i ∈ (names.foldl (reconcileStep owner) (tbl, acc)).2,
        ∃ t ∈ (names.foldl (reconcileStep owner) (tbl, acc)).1.rows,
          t.id = i ∧ t.user = owner) ∧
      (∀ t ∈ (names.foldl (reconcileStep owner) (tbl, acc)).1.rows,
        t ∈ tbl.rows ∨ t.user = owner) := by
  intro names
  induction names with
  | nil =>
    intro tbl acc hnd hacc
    exact ⟨hnd, hacc, fun t ht => Or.inl ht⟩
  | cons n ns ih =>
    intro tbl acc hnd hacc
    rw [List.foldl_cons]
    cases hlk : lookupAttr owner n tbl.rows with
    | some t =>
      rw [reconcileStep_found owner (tbl, acc) n t hlk]
      have ht_mem : t ∈ tbl.rows := List.mem_of_find?_eq_some hlk
      have ht_pred := List.find?_some hlk
      simp only [Bool.and_eq_true, decide_eq_true_eq] at ht_pred
      by_cases hid : t.id ∈ acc
      · rw [if_pos hid]
        exact ih tbl acc hnd hacc
      · rw [if_neg hid]
        apply ih tbl (acc ++ [t.id]) (nodup_append_single acc t.id hnd hid)
        intro i hi
        rcases List.mem_append.mp hi with hi | hi
        · exact hacc i hi
        · simp only [List.mem_singleton] at hi
          subst hi
          exact ⟨t, ht_mem, rfl, ht_pred.1⟩
    | none =>
      rw [reconcileStep_new owner (tbl, acc) n hlk]
      have hlift : ∀ i ∈ acc, ∃ t ∈ tbl.rows ++ [(⟨tbl.nextId, owner, n⟩ : AttrRow)],
          t.id = i ∧ t.user = owner := by
        intro i hi
        rcases hacc i hi with ⟨t, ht1, ht2, ht3⟩
        exact ⟨t, List.mem_append_left _ ht1, ht2, ht3⟩
      have hchain : ∀ (acc' : List Nat), acc'.Nodup →
          (∀ i ∈ acc', ∃ t ∈ tbl.rows ++ [(⟨tbl.nextId, owner, n⟩ : AttrRow)],
            t.id = i ∧ t.user = owner) →
          (ns.foldl (reconcileStep owner)
            (⟨tbl.rows ++ [⟨tbl.nextId, owner, n⟩], tbl.nextId + 1⟩, acc')).2.Nodup ∧
          (∀ i ∈ (ns.foldl (reconcileStep owner)
              (⟨tbl.rows ++ [⟨tbl.nextId, owner, n⟩], tbl.nextId + 1⟩, acc')).2,
            ∃ t ∈ (ns.foldl (reconcileStep owner)
                (⟨tbl.rows ++ [⟨tbl.nextId, owner, n⟩], tbl.nextId + 1⟩, acc')).1.rows,
              t.id = i ∧ t.user = owner) ∧
          (∀ t ∈ (ns.foldl (reconcileStep owner)
              (⟨tbl.rows ++ [⟨tbl.nextId, owner, n⟩], tbl.nextId + 1⟩, acc')).1.rows,
            t ∈ tbl.rows ∨ t.user = owner) := by
        intro acc' hnd' hacc'
        have hres := ih ⟨tbl.rows ++ [⟨tbl.nextId, owner, n⟩], tbl.nextId + 1⟩ acc' hnd' hacc'
        refine ⟨hres.1, hres.2.1, ?_⟩
        intro t' ht'
        rcases hres.2.2 t' ht' with h | h
        · rcases List.mem_append.mp h with h | h
          · exact Or.inl h
          · simp only [List.mem_singleton] at h
            subst h
            exact Or.inr rfl
        · exact Or.inr h
      by_cases hid : tbl.nextId ∈ acc
      · rw [if_pos hid]
        exact hchain acc hnd hlift
      · rw [if_neg hid]
        apply hchain (acc ++ [tbl.nextId]) (nodup_append_single acc tbl.nextId hnd hid)
        intro i hi
        rcases List.mem_append.mp hi with hi | hi
        · exact hlift i hi
        · simp only [List.mem_singleton] at hi
          subst hi
          exact ⟨⟨tbl.nextId, owner, n⟩,
            List.mem_append_right _ (List.mem_singleton.mpr rfl), rfl, rfl⟩

/-- A child table with one Tag named `"Pasta"` owned by user 1, for the
reconciliation witnesses (the spec's Pasta/Garfield scenario). -/
def pastaTable : AttrTable := ⟨[⟨1, 1, "Pasta"⟩], 2⟩

/-- C3: reconciliation is idempotent and duplicate-free — the resulting
table still has at most one row per `(owner, name)` key, the resolved
association list carries no duplicate reference even when a name repeats in
the request, the table grows by exactly the number of distinct requested
names not already present for that owner, and running the same
reconciliation again over the resulting table creates no new rows. -/
theorem C3_reconcile_dedup_idempotent (owner : Nat) (names : List String)
    (tbl : AttrTable) (hk : KeyUnique tbl.rows) :
    KeyUnique (reconcile owner names tbl).1.rows ∧
    (reconcile owner names tbl).2.Nodup ∧
    (reconcile owner names tbl).1.rows.length =
      tbl.rows.length +
        (names.toFinset.filter (fun n => lookupAttr owner n tbl.rows = none)).card ∧
    (reconcile owner names (reconcile owner names tbl).1).1 =
      (reconcile owner names tbl).1 := by
  have hass := reconcile_assoc_ok owner names tbl [] List.nodup_nil
    (by intro i hi; simp at hi)
  refine ⟨reconcile_keyUnique owner names tbl [] hk, hass.1,
    reconcile_growth owner names tbl [], ?_⟩
  apply reconcile_noop_of_present
  intro n hn
  exact reconcile_all_present owner names (tbl, []) n hn

/-- Witness for C3: the Pasta/Garfield scenario — `"Pasta"` exists for the
owner, `"Garfield"` does not, so the table grows by exactly one. -/
theorem C3_reconcile_dedup_idempotent_witness :
    KeyUnique pastaTable.rows ∧
      (KeyUnique (reconcile 1 ["Pasta", "Garfield"] pastaTable).1.rows ∧
      (reconcile 1 ["Pasta", "Garfield"] pastaTable).2.Nodup ∧
      (reconcile 1 ["Pasta", "Garfield"] pastaTable).1.rows.length =
        pastaTable.rows.length +
          ((["Pasta", "Garfield"] : List String).toFinset.filter
            (fun n => lookupAttr 1 n pastaTable.rows = none)).card ∧
      (reconcile 1 ["Pasta", "Garfield"]
          (reconcile 1 ["Pasta", "Garfield"] pastaTable).1).1 =
        (reconcile 1 ["Pasta", "Garfield"] pastaTable).1) :=
  ⟨by decide,
    C3_reconcile_dedup_idempotent 1 ["Pasta", "Garfield"] pastaTable (by decide)⟩

/-- C4: a partial update whose payload omits the tags field leaves the
recipe's association set and the child table exactly as they were; a payload
carrying an empty list clears the recipe's associations while leaving the
child entities intact; and when the prior association set is non-empty the
two cases produce different outcomes. -/
theorem C4_absent_vs_empty (r : Recipe) (tbl : AttrTable) :
    updateTagsField r none tbl = (r, tbl) ∧
    (updateTagsField r (some []) tbl).1.tags = [] ∧
    (updateTagsField r (some []) tbl).2 = tbl ∧
    (r.tags ≠ [] →
      (updateTagsField r none tbl).1.tags ≠
        (updateTagsField r (some []) tbl).1.tags) := by
  refine ⟨rfl, rfl, rfl, ?_⟩
  intro h
  exact h

/-- Witness for C4: `sampleR1` has the non-empty tag set `[10, 12]`. -/
theorem C4_absent_vs_empty_witness :
    sampleR1.tags ≠ [] ∧
      (updateTagsField sampleR1 none pastaTable = (sampleR1, pastaTable) ∧
      (updateTagsField sampleR1 (some []) pastaTable).1.tags = [] ∧
      (updateTagsField sampleR1 (some []) pastaTable).2 = pastaTable ∧
      (sampleR1.tags ≠ [] →
        (updateTagsField sampleR1 none pastaTable).1.tags ≠
          (updateTagsField sampleR1 (some []) pastaTable).1.tags)) :=
  ⟨by decide, C4_absent_vs_empty sampleR1 pastaTable⟩

/-- C8: the same-owner invariant — every association reference resolved by a
recipe create or update points at a child row owned by the recipe's owner,
and reconciliation only ever keeps pre-existing rows or creates rows owned
by that owner. -/
theorem C8_same_owner (r : Recipe) (names : List String) (tbl : AttrTable) :
    (∀ i, i ∈ (updateRecipeTags r names tbl).1.tags →
      ∃ t ∈ (updateRecipeTags r names tbl).2.rows, t.id = i ∧ t.user = r.user) ∧
    (∀ t, t ∈ (reconcile r.user names tbl).1.rows →
      t ∈ tbl.rows ∨ t.user = r.user) := by
  have hass := reconcile_assoc_ok r.user names tbl [] List.nodup_nil
    (by intro i hi; simp at hi)
  exact ⟨fun i hi => hass.2.1 i hi, fun t ht => hass.2.2 t ht⟩

/-- Witness for C8 at the Pasta/Garfield scenario: reference 1 resolved for
recipe `sampleR1` (owner 1) is the existing Pasta row owned by user 1. -/
theorem C8_same_owner_witness :
    (1 ∈ (updateRecipeTags sampleR1 ["Pasta", "Garfield"] pastaTable).1.tags ∧
      ∃ t ∈ (updateRecipeTags sampleR1 ["Pasta", "Garfield"] pastaTable).2.rows,
        t.id = 1 ∧ t.user = sampleR1.user) ∧
    (⟨2, 1, "Garfield"⟩ : AttrRow) ∈
        (reconcile sampleR1.user ["Pasta", "Garfield"] pastaTable).1.rows ∧
      ((⟨2, 1, "Garfield"⟩ : AttrRow) ∈ pastaTable.rows ∨
        (⟨2, 1, "Garfield"⟩ : AttrRow).user = sampleR1.user) :=
  ⟨⟨by decide,
      (C8_same_owner sampleR1 ["Pasta", "Garfield"] pastaTable).1 1 (by decide)⟩,
    by decide,
    (C8_same_owner sampleR1 ["Pasta", "Garfield"] pastaTable).2
      ⟨2, 1, "Garfield"⟩ (by decide)⟩

/-- C9 counterexample: `urls.py` never registers the `ingredients` prefix,
so no Ingredient operation is reachable as a routed endpoint, and the attr
base viewset mixes in no Retrieve action, so no get-one route exists for
Tag either — refuting the claim that list, get-one, update and delete are
all routed for both Tag and Ingredient. -/
theorem C9_counterexample :
    routedActions "ingredients" = [] ∧
      Action.retrieve ∉ routedActions "tags" := by
  constructor
  · decide
  · decide

/-- C9 (amended): the routed surface is — full recipe CRUD plus image
upload under `recipes`; list, update and delete (owner-scoped, with no
create action and no get-one action) under `tags`; the `IngredientViewSet`
class defines the same operations as the tag viewset but is never
registered with the router, so no ingredient endpoint is routed. -/
theorem C9_routed_surface :
    routedActions "recipes" =
      [Action.list, Action.retrieve, Action.create, Action.update,
        Action.patch, Action.destroy, Action.upload_image] ∧
    routedActions "tags" = [Action.update, Action.patch, Action.list, Action.destroy] ∧
    Action.create ∉ routedActions "tags" ∧
    Action.retrieve ∉ routedActions "tags" ∧
    routedActions "ingredients" = [] ∧
    ingredientViewSetActions = attrActions := by
  refine ⟨?_, ?_, ?_, ?_, ?_, ?_⟩ <;> decide

end RecipeApp
